import Mathlib

/-!
Verification of the `interactive` crate core (`src/interactive/src/lib.rs`)
of the differential-dataflow repository: the `Datum`/`Expression` contract,
the `Query`/`Rule`/`Command` data model and its builder methods, a model of
the serializable `Plan` intermediate representation, and a model of the
`Manager` registries with query validation.
-/

set_option maxHeartbeats 1000000

namespace Interactive

/-- Result of a Rust slice indexing operation `data[i]`: `ok v` on success;
`outOfBounds` models the index-out-of-bounds panic raised when
`i >= data.len()`. -/
inductive IndexResult (V : Type) where
  | ok (value : V)
  | outOfBounds
deriving DecidableEq

/-- Rust slice indexing `data[i]`: the element at position `i` when
`i < data.len()`, an out-of-bounds failure otherwise. -/
def sliceIndex {V : Type} (data : List V) (i : Nat) : IndexResult V :=
  if h : i < data.length then .ok (data.get ⟨i, h⟩) else .outOfBounds

namespace UsizeDatum

/-- `impl Datum for usize`: `fn subject_to(data: &[Self], expr: &usize) -> Self
{ data[*expr] }` (lib.rs line 51). `usize` values are modelled as `Nat`;
the associated `Expression` type is `usize`, modelled as `Nat`. -/
def subject_to (data : List Nat) (expr : Nat) : IndexResult Nat :=
  sliceIndex data expr

/-- `impl Datum for usize`: `fn projection(index: usize) -> usize { index }`
(lib.rs line 52). -/
def projection (index : Nat) : Nat := index

end UsizeDatum

namespace U32Datum

/-- `impl Datum for u32`: `fn subject_to(data: &[Self], expr: &usize) -> Self
{ data[*expr] }` (lib.rs line 57). `u32` values are modelled as `Nat`
(the value bound `< 2^32` plays no role in indexing); the associated
`Expression` type is `usize`, modelled as `Nat`. -/
def subject_to (data : List Nat) (expr : Nat) : IndexResult Nat :=
  sliceIndex data expr

/-- `impl Datum for u32`: `fn projection(index: usize) -> usize { index }`
(lib.rs line 58). -/
def projection (index : Nat) : Nat := index

end U32Datum

/-- Modelled from the spec: `Plan<V>` lives in the `plan` module, which is
declared in lib.rs (`pub mod plan;`) but whose source is not available.
Node kinds follow spec sections 3, 4.2 and 9: reading a named collection,
deriving tuples via expressions, equi-join on key expressions, union,
difference, and recursive (fixpoint) scopes. The expression type is
instantiated at `usize` (modelled `Nat`), the `Expression` type of both
provided `Datum` implementations. -/
inductive Plan where
  | read (name : String)
  | derive (exprs : List Nat) (input : Plan)
  | join (leftKeys rightKeys : List Nat) (left right : Plan)
  | union (left right : Plan)
  | difference (left right : Plan)
  | recurse (name : String) (body : Plan)
deriving DecidableEq

/-- `pub struct Rule<V: Datum> { pub name: String, pub plan: Plan<V> }`
(lib.rs lines 108-114). -/
structure Rule where
  name : String
  plan : Plan
deriving DecidableEq

/-- `pub struct Query<V: Datum> { pub rules: Vec<Rule<V>>,
pub imports: Vec<(Plan<V>, Vec<usize>)>, pub publish: Vec<(Plan<V>, Vec<usize>)> }`
(lib.rs lines 68-76). -/
structure Query where
  rules : List Rule
  imports : List (Plan × List Nat)
  publish : List (Plan × List Nat)
deriving DecidableEq

/-- `Query::new()` (lib.rs lines 80-82): the empty query. -/
def Query.new : Query :=
  { rules := [], imports := [], publish := [] }

/-- `Query::add_rule` (lib.rs lines 84-87): `self.rules.push(rule); self`. -/
def Query.add_rule (q : Query) (rule : Rule) : Query :=
  { q with rules := q.rules ++ [rule] }

/-- `Query::add_import` (lib.rs lines 89-92): `self.imports.push((plan, keys)); self`. -/
def Query.add_import (q : Query) (plan : Plan) (keys : List Nat) : Query :=
  { q with imports := q.imports ++ [(plan, keys)] }

/-- `Query::add_publish` (lib.rs lines 94-97): `self.publish.push((plan, keys)); self`. -/
def Query.add_publish (q : Query) (plan : Plan) (keys : List Nat) : Query :=
  { q with publish := q.publish ++ [(plan, keys)] }

/-- Modelled from the spec: `Command<V>` lives in the `command` module,
declared in lib.rs but not available; per spec section 3 the only evidenced
variant is `Query(Query<V>)`. -/
inductive Command where
  | query (q : Query)
deriving DecidableEq

/-- `Query::into_command` (lib.rs lines 102-104): `Command::Query(self)`. -/
def Query.into_command (q : Query) : Command :=
  Command.query q

/-- `Rule::into_query` (lib.rs lines 118-120): `Query::new().add_rule(self)`. -/
def Rule.into_query (r : Rule) : Query :=
  Query.new.add_rule r

/-- One call to a `Query` builder method, so that arbitrary sequences of
`add_rule` / `add_import` / `add_publish` calls can be quantified over. -/
inductive BuilderCall where
  | callRule (r : Rule)
  | callImport (plan : Plan) (keys : List Nat)
  | callPublish (plan : Plan) (keys : List Nat)
deriving DecidableEq

/-- Apply one builder call to a query. -/
def applyCall (q : Query) : BuilderCall → Query
  | .callRule r => q.add_rule r
  | .callImport p k => q.add_import p k
  | .callPublish p k => q.add_publish p k

/-- Apply a sequence of builder calls in order. -/
def applyCalls (q : Query) (cs : List BuilderCall) : Query :=
  cs.foldl applyCall q

/-- The rules added by a sequence of builder calls, in call order. -/
def addedRules : List BuilderCall → List Rule
  | [] => []
  | .callRule r :: cs => r :: addedRules cs
  | .callImport _ _ :: cs => addedRules cs
  | .callPublish _ _ :: cs => addedRules cs

/-- The imports added by a sequence of builder calls, in call order. -/
def addedImports : List BuilderCall → List (Plan × List Nat)
  | [] => []
  | .callRule _ :: cs => addedImports cs
  | .callImport p k :: cs => (p, k) :: addedImports cs
  | .callPublish _ _ :: cs => addedImports cs

/-- The publish entries added by a sequence of builder calls, in call order. -/
def addedPublish : List BuilderCall → List (Plan × List Nat)
  | [] => []
  | .callRule _ :: cs => addedPublish cs
  | .callImport _ _ :: cs => addedPublish cs
  | .callPublish p k :: cs => (p, k) :: addedPublish cs

/-! Serialization. The crate serializes `Query`/`Rule`/`Plan`/`Command` with
serde + bincode (`#[derive(Serialize, Deserialize)]`, lib.rs lines 68 and 108).
Modelled from the spec: the concrete byte format is an implementation choice of
the transport; the design constraint is a lossless round-trip. The model
encodes into a `List Nat` token stream with length-prefixed sequences. -/

/-- Encode a list of naturals: length prefix followed by the elements. -/
def encodeNatList (l : List Nat) : List Nat := l.length :: l

/-- Decode a length-prefixed list of naturals, returning it with the
remaining stream. -/
def decodeNatList (code : List Nat) : Option (List Nat × List Nat) :=
  match code with
  | [] => none
  | n :: rest => if n ≤ rest.length then some (rest.take n, rest.drop n) else none

/-- Encode a string as the length-prefixed list of its character codes. -/
def encodeString (s : String) : List Nat := encodeNatList (s.data.map Char.toNat)

/-- Decode a string from a length-prefixed list of character codes. -/
def decodeString (code : List Nat) : Option (String × List Nat) :=
  match decodeNatList code with
  | some (ns, rest) => some (String.mk (ns.map Char.ofNat), rest)
  | none => none

/-- Encode a plan: a constructor tag followed by the encoded fields. -/
def encodePlan : Plan → List Nat
  | .read name => 0 :: encodeString name
  | .derive exprs input => 1 :: (encodeNatList exprs ++ encodePlan input)
  | .join lk rk l r =>
      2 :: (encodeNatList lk ++ (encodeNatList rk ++ (encodePlan l ++ encodePlan r)))
  | .union l r => 3 :: (encodePlan l ++ encodePlan r)
  | .difference l r => 4 :: (encodePlan l ++ encodePlan r)
  | .recurse name body => 5 :: (encodeString name ++ encodePlan body)

/-- Fuel-indexed plan decoder; the fuel bounds the recursion depth. -/
def decodePlan : Nat → List Nat → Option (Plan × List Nat)
  | 0, _ => none
  | _ + 1, [] => none
  | fuel + 1, tag :: rest =>
    match tag with
    | 0 =>
      match decodeString rest with
      | some (name, r₁) => some (.read name, r₁)
      | none => none
    | 1 =>
      match decodeNatList rest with
      | some (exprs, r₁) =>
        match decodePlan fuel r₁ with
        | some (input, r₂) => some (.derive exprs input, r₂)
        | none => none
      | none => none
    | 2 =>
      match decodeNatList rest with
      | some (lk, r₁) =>
        match decodeNatList r₁ with
        | some (rk, r₂) =>
          match decodePlan fuel r₂ with
          | some (l, r₃) =>
            match decodePlan fuel r₃ with
            | some (r, r₄) => some (.join lk rk l r, r₄)
            | none => none
          | none => none
        | none => none
      | none => none
    | 3 =>
      match decodePlan fuel rest with
      | some (l, r₁) =>
        match decodePlan fuel r₁ with
        | some (r, r₂) => some (.union l r, r₂)
        | none => none
      | none => none
    | 4 =>
      match decodePlan fuel rest with
      | some (l, r₁) =>
        match decodePlan fuel r₁ with
        | some (r, r₂) => some (.difference l r, r₂)
        | none => none
      | none => none
    | 5 =>
      match decodeString rest with
      | some (name, r₁) =>
        match decodePlan fuel r₁ with
        | some (body, r₂) => some (.recurse name body, r₂)
        | none => none
      | none => none
    | _ => none

/-- Recursion-depth measure of a plan, used as decoder fuel. -/
def planFuel : Plan → Nat
  | .read _ => 1
  | .derive _ input => planFuel input + 1
  | .join _ _ l r => planFuel l + planFuel r + 1
  | .union l r => planFuel l + planFuel r + 1
  | .difference l r => planFuel l + planFuel r + 1
  | .recurse _ body => planFuel body + 1

/-- Encode a rule: name then plan. -/
def encodeRule (r : Rule) : List Nat := encodeString r.name ++ encodePlan r.plan

/-- Decode a rule: name then plan. -/
def decodeRule (fuel : Nat) (code : List Nat) : Option (Rule × List Nat) :=
  match decodeString code with
  | some (name, r₁) =>
    match decodePlan fuel r₁ with
    | some (plan, r₂) => some (⟨name, plan⟩, r₂)
    | none => none
  | none => none

/-- Encode an import/publish entry: plan then key columns. -/
def encodePK (x : Plan × List Nat) : List Nat := encodePlan x.1 ++ encodeNatList x.2

/-- Decode an import/publish entry: plan then key columns. -/
def decodePK (fuel : Nat) (code : List Nat) : Option ((Plan × List Nat) × List Nat) :=
  match decodePlan fuel code with
  | some (plan, r₁) =>
    match decodeNatList r₁ with
    | some (keys, r₂) => some ((plan, keys), r₂)
    | none => none
  | none => none

/-- Encode a list of rules back to back. -/
def encodeRuleList : List Rule → List Nat
  | [] => []
  | r :: rs => encodeRule r ++ encodeRuleList rs

/-- Decode a given number of rules. -/
def decodeRuleList (fuel : Nat) : Nat → List Nat → Option (List Rule × List Nat)
  | 0, code => some ([], code)
  | n + 1, code =>
    match decodeRule fuel code with
    | some (r, r₁) =>
      match decodeRuleList fuel n r₁ with
      | some (rs, r₂) => some (r :: rs, r₂)
      | none => none
    | none => none

/-- Encode a list of import/publish entries back to back. -/
def encodePKList : List (Plan × List Nat) → List Nat
  | [] => []
  | x :: xs => encodePK x ++ encodePKList xs

/-- Decode a given number of import/publish entries. -/
def decodePKList (fuel : Nat) : Nat → List Nat → Option (List (Plan × List Nat) × List Nat)
  | 0, code => some ([], code)
  | n + 1, code =>
    match decodePK fuel code with
    | some (x, r₁) =>
      match decodePKList fuel n r₁ with
      | some (xs, r₂) => some (x :: xs, r₂)
      | none => none
    | none => none

/-- Encode a query: its three length-prefixed field sequences in order. -/
def encodeQuery (q : Query) : List Nat :=
  (q.rules.length :: encodeRuleList q.rules) ++
    ((q.imports.length :: encodePKList q.imports) ++
      (q.publish.length :: encodePKList q.publish))

/-- Decode a query: its three length-prefixed field sequences in order. -/
def decodeQuery (fuel : Nat) (code : List Nat) : Option (Query × List Nat) :=
  match code with
  | [] => none
  | nr :: rest =>
    match decodeRuleList fuel nr rest with
    | some (rs, r₁) =>
      match r₁ with
      | [] => none
      | ni :: r₂ =>
        match decodePKList fuel ni r₂ with
        | some (is, r₃) =>
          match r₃ with
          | [] => none
          | np :: r₄ =>
            match decodePKList fuel np r₄ with
            | some (ps, r₅) => some (⟨rs, is, ps⟩, r₅)
            | none => none
        | none => none
    | none => none

/-- Encode a command: a variant tag followed by the payload. -/
def encodeCommand : Command → List Nat
  | .query q => 0 :: encodeQuery q

/-- Decode a command: a variant tag followed by the payload. -/
def decodeCommand (fuel : Nat) (code : List Nat) : Option (Command × List Nat) :=
  match code with
  | 0 :: rest =>
    match decodeQuery fuel rest with
    | some (q, r₁) => some (.query q, r₁)
    | none => none
  | _ => none

/-- Top-level plan message decoder, with fuel taken from the message length. -/
def decodePlanMsg (code : List Nat) : Option Plan :=
  match decodePlan code.length code with
  | some (p, []) => some p
  | _ => none

/-- Top-level rule message decoder. -/
def decodeRuleMsg (code : List Nat) : Option Rule :=
  match decodeRule code.length code with
  | some (r, []) => some r
  | _ => none

/-- Top-level query message decoder. -/
def decodeQueryMsg (code : List Nat) : Option Query :=
  match decodeQuery code.length code with
  | some (q, []) => some q
  | _ => none

/-- Top-level command message decoder. -/
def decode (code : List Nat) : Option Command :=
  match decodeCommand code.length code with
  | some (c, []) => some c
  | _ => none

/-- Top-level command message encoder. -/
def encode (c : Command) : List Nat := encodeCommand c

/-! Hashing. The crate derives `Hash` for `Query`, `Rule` and `Plan`
(lib.rs lines 68 and 108). Modelled from the spec: derived hashing is an
order-sensitive structural fold over the fields, with list hashing folding
over the elements in order. The model uses a simple mixing fold over `Nat`. -/

/-- One hash mixing step (order-sensitive). -/
def mix (h x : Nat) : Nat := h * 31 + x + 1

/-- Hash of a string: fold over its character codes. -/
def hashString (s : String) : Nat := (s.data.map Char.toNat).foldl mix 7

/-- Hash of a list of naturals: fold over the elements in order. -/
def hashNatList (l : List Nat) : Nat := l.foldl mix 11

/-- Hash of a plan: constructor tag mixed with field hashes in order. -/
def hashPlan : Plan → Nat
  | .read n => mix 0 (hashString n)
  | .derive es p => mix (mix 1 (hashNatList es)) (hashPlan p)
  | .join lk rk l r =>
      mix (mix (mix (mix 2 (hashNatList lk)) (hashNatList rk)) (hashPlan l)) (hashPlan r)
  | .union l r => mix (mix 3 (hashPlan l)) (hashPlan r)
  | .difference l r => mix (mix 4 (hashPlan l)) (hashPlan r)
  | .recurse n p => mix (mix 5 (hashString n)) (hashPlan p)

/-- Hash of a rule: name hash mixed with plan hash. -/
def hashRule (r : Rule) : Nat := mix (hashString r.name) (hashPlan r.plan)

/-- Hash of an import/publish entry. -/
def hashPK (x : Plan × List Nat) : Nat := mix (hashPlan x.1) (hashNatList x.2)

/-- Hash of a list of rules: fold over element hashes in order. -/
def hashRuleList (l : List Rule) : Nat := (l.map hashRule).foldl mix 13

/-- Hash of a list of import/publish entries. -/
def hashPKList (l : List (Plan × List Nat)) : Nat := (l.map hashPK).foldl mix 13

/-- Hash of a query: the three field hashes mixed in field order. -/
def hashQuery (q : Query) : Nat :=
  mix (mix (hashRuleList q.rules) (hashPKList q.imports)) (hashPKList q.publish)

/-- Build a query by adding the given rules in order to `Query::new()`. -/
def queryOfRules (l : List Rule) : Query := l.foldl Query.add_rule Query.new

/-- Build a query by adding the given imports in order to `Query::new()`. -/
def queryOfImports (l : List (Plan × List Nat)) : Query :=
  l.foldl (fun q x => q.add_import x.1 x.2) Query.new

/-- Build a query by adding the given publish entries in order to `Query::new()`. -/
def queryOfPublish (l : List (Plan × List Nat)) : Query :=
  l.foldl (fun q x => q.add_publish x.1 x.2) Query.new

/-! Manager and validation. Modelled from the spec: the `manager` module is
declared in lib.rs (`pub mod manager;`) but its source is not available.
Spec sections 3, 4.3 and 7: the Manager holds an InputManager registry
(name to input handle) and a TraceManager registry (name to refcounted
arrangement); installing a `Command::Query` first validates that rule names
are unique and that every import/publish plan resolves to an in-query rule
name or a name present in the registries, and any validation failure aborts
the whole command atomically with a ValidationError, leaving the registries
unchanged; on success imports and publishes are registered (refcounts
bumped, new entries created with refcount 1). -/

/-- Modelled from the spec: error kinds of section 7 relevant at install time. -/
inductive InstallError where
  | validationError
deriving DecidableEq

/-- Modelled from the spec: the Manager's two registries. `inputs` maps a
name to an input handle id; `traces` maps a name to its refcount. -/
structure Manager where
  inputs : List (String × Nat)
  traces : List (String × Nat)
deriving DecidableEq

/-- The external name a plan references, when it is a read node. -/
def planImportName : Plan → Option String
  | .read n => some n
  | _ => none

/-- Whether a name is present in either Manager registry. -/
def managerHasName (m : Manager) (n : String) : Bool :=
  m.traces.any (fun t => t.1 == n) || m.inputs.any (fun t => t.1 == n)

/-- Whether an import/publish plan resolves: it reads a name that is either
an in-query rule name or is present in the Manager registries. -/
def importResolves (m : Manager) (q : Query) (p : Plan) : Bool :=
  match planImportName p with
  | some n => q.rules.any (fun r => r.name == n) || managerHasName m n
  | none => false

/-- Whether a list of names has no duplicates. -/
def distinctNames : List String → Bool
  | [] => true
  | n :: rest => (!rest.contains n) && distinctNames rest

/-- Validation of a query against the Manager (spec section 4.3, checks (a)
and (b)): rule names unique, and every import and publish plan resolves. -/
def validateQuery (m : Manager) (q : Query) : Bool :=
  distinctNames (q.rules.map Rule.name) &&
    q.imports.all (fun x => importResolves m q x.1) &&
    q.publish.all (fun x => importResolves m q x.1)

/-- Bump the refcount of a name in the trace registry, creating the entry
with refcount 1 when absent. -/
def bumpTrace : List (String × Nat) → String → List (String × Nat)
  | [], n => [(n, 1)]
  | (m, c) :: rest, n =>
      if m == n then (m, c + 1) :: rest else (m, c) :: bumpTrace rest n

/-- Register the name referenced by a plan in the trace registry. -/
def registerName (ts : List (String × Nat)) (p : Plan) : List (String × Nat) :=
  match planImportName p with
  | some n => bumpTrace ts n
  | none => ts

/-- Commit a validated query: bump refcounts for imports, then register
publishes. -/
def commitQuery (m : Manager) (q : Query) : Manager :=
  let afterImports := q.imports.foldl (fun ts x => registerName ts x.1) m.traces
  let afterPublish := q.publish.foldl (fun ts x => registerName ts x.1) afterImports
  { m with traces := afterPublish }

/-- Install a command: validate, then commit atomically; on validation
failure report a ValidationError and leave the Manager unchanged. -/
def installCommand (m : Manager) (c : Command) : Option InstallError × Manager :=
  match c with
  | .query q =>
    if validateQuery m q then (none, commitQuery m q)
    else (some .validationError, m)

lemma applyCalls_fields (cs : List BuilderCall) : ∀ q : Query,
    (applyCalls q cs).rules = q.rules ++ addedRules cs ∧
    (applyCalls q cs).imports = q.imports ++ addedImports cs ∧
    (applyCalls q cs).publish = q.publish ++ addedPublish cs := by
  induction cs with
  | nil => intro q; simp [applyCalls, addedRules, addedImports, addedPublish]
  | cons c cs ih =>
    intro q
    cases c with
    | callRule r =>
      have h := ih (q.add_rule r)
      simpa [applyCalls, addedRules, addedImports, addedPublish,
        Query.add_rule, List.foldl_cons, applyCall, List.append_assoc] using h
    | callImport p k =>
      have h := ih (q.add_import p k)
      simpa [applyCalls, addedRules, addedImports, addedPublish,
        Query.add_import, List.foldl_cons, applyCall, List.append_assoc] using h
    | callPublish p k =>
      have h := ih (q.add_publish p k)
      simpa [applyCalls, addedRules, addedImports, addedPublish,
        Query.add_publish, List.foldl_cons, applyCall, List.append_assoc] using h

lemma decodeNatList_encodeNatList (l rest : List Nat) :
    decodeNatList (encodeNatList l ++ rest) = some (l, rest) := by
  simp [encodeNatList, decodeNatList, List.take_left, List.drop_left,
    Nat.le_add_right]

lemma decodeString_encodeString (s : String) (rest : List Nat) :
    decodeString (encodeString s ++ rest) = some (s, rest) := by
  cases s with
  | mk data =>
    simp [encodeString, decodeString, decodeNatList_encodeNatList,
      List.map_map, Function.comp_def]

lemma planFuel_pos (p : Plan) : 0 < planFuel p := by
  cases p <;> simp [planFuel]

lemma decodePlan_encodePlan :
    ∀ (p : Plan) (fuel : Nat) (rest : List Nat), planFuel p ≤ fuel →
    decodePlan fuel (encodePlan p ++ rest) = some (p, rest) := by
  intro p
  induction p with
  | read name =>
    intro fuel rest h
    cases fuel with
    | zero => exact absurd h (by simp [planFuel])
    | succ f =>
      simp [encodePlan, decodePlan, decodeString_encodeString]
  | derive exprs input ih =>
    intro fuel rest h
    cases fuel with
    | zero => exact absurd h (by simp [planFuel])
    | succ f =>
      have hi : planFuel input ≤ f := by simp [planFuel] at h; omega
      simp [encodePlan, decodePlan, List.append_assoc,
        decodeNatList_encodeNatList, ih f rest hi]
  | join lk rk l r ihl ihr =>
    intro fuel rest h
    cases fuel with
    | zero => exact absurd h (by simp [planFuel])
    | succ f =>
      have hl : planFuel l ≤ f := by simp [planFuel] at h; omega
      have hr : planFuel r ≤ f := by simp [planFuel] at h; omega
      simp [encodePlan, decodePlan, List.append_assoc,
        decodeNatList_encodeNatList, ihl f _ hl, ihr f rest hr]
  | union l r ihl ihr =>
    intro fuel rest h
    cases fuel with
    | zero => exact absurd h (by simp [planFuel])
    | succ f =>
      have hl : planFuel l ≤ f := by simp [planFuel] at h; omega
      have hr : planFuel r ≤ f := by simp [planFuel] at h; omega
      simp [encodePlan, decodePlan, List.append_assoc,
        ihl f _ hl, ihr f rest hr]
  | difference l r ihl ihr =>
    intro fuel rest h
    cases fuel with
    | zero => exact absurd h (by simp [planFuel])
    | succ f =>
      have hl : planFuel l ≤ f := by simp [planFuel] at h; omega
      have hr : planFuel r ≤ f := by simp [planFuel] at h; omega
      simp [encodePlan, decodePlan, List.append_assoc,
        ihl f _ hl, ihr f rest hr]
  | recurse name body ih =>
    intro fuel rest h
    cases fuel with
    | zero => exact absurd h (by simp [planFuel])
    | succ f =>
      have hb : planFuel body ≤ f := by simp [planFuel] at h; omega
      simp [encodePlan, decodePlan, List.append_assoc,
        decodeString_encodeString, ih f rest hb]

lemma decodeRule_encodeRule (r : Rule) (fuel : Nat) (rest : List Nat)
    (h : planFuel r.plan ≤ fuel) :
    decodeRule fuel (encodeRule r ++ rest) = some (r, rest) := by
  simp [encodeRule, decodeRule, List.append_assoc, decodeString_encodeString,
    decodePlan_encodePlan r.plan fuel rest h]

lemma decodePK_encodePK (x : Plan × List Nat) (fuel : Nat) (rest : List Nat)
    (h : planFuel x.1 ≤ fuel) :
    decodePK fuel (encodePK x ++ rest) = some (x, rest) := by
  simp [encodePK, decodePK, List.append_assoc,
    decodePlan_encodePlan x.1 fuel _ h, decodeNatList_encodeNatList]

lemma decodeRuleList_encodeRuleList :
    ∀ (rs : List Rule) (fuel : Nat) (rest : List Nat),
    (∀ r ∈ rs, planFuel r.plan ≤ fuel) →
    decodeRuleList fuel rs.length (encodeRuleList rs ++ rest) = some (rs, rest) := by
  intro rs
  induction rs with
  | nil => intro fuel rest _; simp [encodeRuleList, decodeRuleList]
  | cons r rs ih =>
    intro fuel rest h
    have hr : planFuel r.plan ≤ fuel := h r (List.mem_cons_self r rs)
    have hrs : ∀ x ∈ rs, planFuel x.plan ≤ fuel :=
      fun x hx => h x (List.mem_cons_of_mem r hx)
    simp [encodeRuleList, decodeRuleList, List.append_assoc,
      decodeRule_encodeRule r fuel _ hr, ih fuel rest hrs]

lemma decodePKList_encodePKList :
    ∀ (xs : List (Plan × List Nat)) (fuel : Nat) (rest : List Nat),
    (∀ x ∈ xs, planFuel x.1 ≤ fuel) →
    decodePKList fuel xs.length (encodePKList xs ++ rest) = some (xs, rest) := by
  intro xs
  induction xs with
  | nil => intro fuel rest _; simp [encodePKList, decodePKList]
  | cons x xs ih =>
    intro fuel rest h
    have hx : planFuel x.1 ≤ fuel := h x (List.mem_cons_self x xs)
    have hxs : ∀ y ∈ xs, planFuel y.1 ≤ fuel :=
      fun y hy => h y (List.mem_cons_of_mem x hy)
    simp [encodePKList, decodePKList, List.append_assoc,
      decodePK_encodePK x fuel _ hx, ih fuel rest hxs]

lemma decodeQuery_encodeQuery (q : Query) (fuel : Nat) (rest : List Nat)
    (hr : ∀ r ∈ q.rules, planFuel r.plan ≤ fuel)
    (hi : ∀ x ∈ q.imports, planFuel x.1 ≤ fuel)
    (hp : ∀ x ∈ q.publish, planFuel x.1 ≤ fuel) :
    decodeQuery fuel (encodeQuery q ++ rest) = some (q, rest) := by
  cases q with
  | mk rules imports publish =>
    simp only [encodeQuery, List.cons_append, List.append_assoc]
    simp [decodeQuery, decodeRuleList_encodeRuleList rules fuel _ hr,
      decodePKList_encodePKList imports fuel _ hi,
      decodePKList_encodePKList publish fuel rest hp]

lemma decodeCommand_encodeCommand (c : Command) (fuel : Nat) (rest : List Nat)
    (h : ∀ q : Query, c = .query q →
      (∀ r ∈ q.rules, planFuel r.plan ≤ fuel) ∧
      (∀ x ∈ q.imports, planFuel x.1 ≤ fuel) ∧
      (∀ x ∈ q.publish, planFuel x.1 ≤ fuel)) :
    decodeCommand fuel (encodeCommand c ++ rest) = some (c, rest) := by
  cases c with
  | query q =>
    obtain ⟨hr, hi, hp⟩ := h q rfl
    simp [encodeCommand, decodeCommand,
      decodeQuery_encodeQuery q fuel rest hr hi hp]

lemma planFuel_le_length_encodePlan : ∀ p : Plan, planFuel p ≤ (encodePlan p).length := by
  intro p
  induction p with
  | read name => simp [planFuel, encodePlan]
  | derive exprs input ih =>
    simp [planFuel, encodePlan]; omega
  | join lk rk l r ihl ihr =>
    simp [planFuel, encodePlan]; omega
  | union l r ihl ihr =>
    simp [planFuel, encodePlan]; omega
  | difference l r ihl ihr =>
    simp [planFuel, encodePlan]; omega
  | recurse name body ih =>
    simp [planFuel, encodePlan]; omega

lemma length_encodePlan_le_encodeRuleList (rs : List Rule) :
    ∀ r ∈ rs, (encodePlan r.plan).length ≤ (encodeRuleList rs).length := by
  induction rs with
  | nil => intro r hr; exact absurd hr (List.not_mem_nil r)
  | cons x xs ih =>
    intro r hr
    rcases List.mem_cons.mp hr with h | h
    · subst h
      simp [encodeRuleList, encodeRule]
      omega
    · have := ih r h
      simp [encodeRuleList]
      omega

lemma length_encodePlan_le_encodePKList (xs : List (Plan × List Nat)) :
    ∀ x ∈ xs, (encodePlan x.1).length ≤ (encodePKList xs).length := by
  induction xs with
  | nil => intro x hx; exact absurd hx (List.not_mem_nil x)
  | cons y ys ih =>
    intro x hx
    rcases List.mem_cons.mp hx with h | h
    · subst h
      simp [encodePKList, encodePK]
    · have := ih x h
      simp [encodePKList]
      omega

lemma queryFuel_bound (q : Query) :
    (∀ r ∈ q.rules, planFuel r.plan ≤ (encodeQuery q).length) ∧
    (∀ x ∈ q.imports, planFuel x.1 ≤ (encodeQuery q).length) ∧
    (∀ x ∈ q.publish, planFuel x.1 ≤ (encodeQuery q).length) := by
  refine ⟨fun r hr => ?_, fun x hx => ?_, fun x hx => ?_⟩
  · have h1 := planFuel_le_length_encodePlan r.plan
    have h2 := length_encodePlan_le_encodeRuleList q.rules r hr
    simp [encodeQuery]
    omega
  · have h1 := planFuel_le_length_encodePlan x.1
    have h2 := length_encodePlan_le_encodePKList q.imports x hx
    simp [encodeQuery]
    omega
  · have h1 := planFuel_le_length_encodePlan x.1
    have h2 := length_encodePlan_le_encodePKList q.publish x hx
    simp [encodeQuery]
    omega

lemma foldl_add_rule_rules (l : List Rule) : ∀ q : Query,
    (l.foldl Query.add_rule q).rules = q.rules ++ l := by
  induction l with
  | nil => intro q; simp
  | cons r rs ih =>
    intro q
    rw [List.foldl_cons, ih]
    simp [Query.add_rule]

lemma foldl_add_import_imports (l : List (Plan × List Nat)) : ∀ q : Query,
    (l.foldl (fun q x => q.add_import x.1 x.2) q).imports = q.imports ++ l := by
  induction l with
  | nil => intro q; simp
  | cons x xs ih =>
    intro q
    rw [List.foldl_cons, ih]
    simp [Query.add_import]

lemma foldl_add_publish_publish (l : List (Plan × List Nat)) : ∀ q : Query,
    (l.foldl (fun q x => q.add_publish x.1 x.2) q).publish = q.publish ++ l := by
  induction l with
  | nil => intro q; simp
  | cons x xs ih =>
    intro q
    rw [List.foldl_cons, ih]
    simp [Query.add_publish]

lemma queryOfRules_rules (l : List Rule) : (queryOfRules l).rules = l := by
  rw [queryOfRules, foldl_add_rule_rules l Query.new]
  rfl

lemma queryOfImports_imports (l : List (Plan × List Nat)) :
    (queryOfImports l).imports = l := by
  rw [queryOfImports, foldl_add_import_imports l Query.new]
  rfl

lemma queryOfPublish_publish (l : List (Plan × List Nat)) :
    (queryOfPublish l).publish = l := by
  rw [queryOfPublish, foldl_add_publish_publish l Query.new]
  rfl

end Interactive

namespace Interactive

/-- Claim C1: for both provided Datum implementations (usize and u32), and for
every data slice and index `i` with `i < data.len()`,
`subject_to(data, projection(i))` returns exactly `data[i]`. -/
theorem subject_to_projection_in_bounds (data : List Nat) (i : Nat)
    (h : i < data.length) :
    UsizeDatum.subject_to data (UsizeDatum.projection i) = .ok (data.get ⟨i, h⟩) ∧
    U32Datum.subject_to data (U32Datum.projection i) = .ok (data.get ⟨i, h⟩) := by
  constructor <;>
    simp [UsizeDatum.subject_to, UsizeDatum.projection,
      U32Datum.subject_to, U32Datum.projection, sliceIndex, h]

/-- Witness for C1: on `data = [5, 7, 9]` and `i = 1`, both implementations
return `data[1] = 7`. -/
theorem subject_to_projection_in_bounds_witness :
    UsizeDatum.subject_to [5, 7, 9] (UsizeDatum.projection 1) = .ok 7 ∧
    U32Datum.subject_to [5, 7, 9] (U32Datum.projection 1) = .ok 7 :=
  subject_to_projection_in_bounds [5, 7, 9] 1 (by decide)

/-- Claim C2: for both provided Datum implementations, calling
`subject_to(data, projection(i))` with `i >= data.len()` fails with an
out-of-bounds condition rather than returning a silent default value; and
under the precondition `i < data.len()` the failure branch is unreachable
(some value is always returned). -/
theorem subject_to_projection_out_of_bounds (data : List Nat) (i : Nat) :
    (data.length ≤ i →
      UsizeDatum.subject_to data (UsizeDatum.projection i) = .outOfBounds ∧
      U32Datum.subject_to data (U32Datum.projection i) = .outOfBounds) ∧
    (i < data.length →
      (∃ v, UsizeDatum.subject_to data (UsizeDatum.projection i) = .ok v) ∧
      (∃ v, U32Datum.subject_to data (U32Datum.projection i) = .ok v)) := by
  constructor
  · intro h
    have h' : ¬ i < data.length := Nat.not_lt.mpr h
    constructor <;>
      simp [UsizeDatum.subject_to, UsizeDatum.projection,
        U32Datum.subject_to, U32Datum.projection, sliceIndex, h']
  · intro h
    refine ⟨⟨data.get ⟨i, h⟩, ?_⟩, ⟨data.get ⟨i, h⟩, ?_⟩⟩ <;>
      simp [UsizeDatum.subject_to, UsizeDatum.projection,
        U32Datum.subject_to, U32Datum.projection, sliceIndex, h]

/-- Witness for C2: on `data = [5, 7]` and `i = 3`, both implementations
fail with the out-of-bounds condition. -/
theorem subject_to_projection_out_of_bounds_witness :
    UsizeDatum.subject_to [5, 7] (UsizeDatum.projection 3) = .outOfBounds ∧
    U32Datum.subject_to [5, 7] (U32Datum.projection 3) = .outOfBounds :=
  (subject_to_projection_out_of_bounds [5, 7] 3).1 (by decide)

/-- Claim C3: `Query::new().add_rule(r).rules == [r]`, and for every query and
every sequence of `add_rule` / `add_import` / `add_publish` calls, the
resulting `rules`, `imports` and `publish` vectors contain exactly the added
elements appended at the end in call order, preserving earlier elements. -/
theorem query_builder_append_order :
    (∀ r : Rule, (Query.new.add_rule r).rules = [r]) ∧
    (∀ (q : Query) (cs : List BuilderCall),
      (applyCalls q cs).rules = q.rules ++ addedRules cs ∧
      (applyCalls q cs).imports = q.imports ++ addedImports cs ∧
      (applyCalls q cs).publish = q.publish ++ addedPublish cs) := by
  constructor
  · intro r; rfl
  · intro q cs; exact applyCalls_fields cs q

/-- Claim C6: `Query::into_command` returns the `Command::Query` variant
carrying the query unchanged; since the result is exactly `Command::Query(q)`,
no other variant is ever produced by this conversion. -/
theorem into_command_is_query (q : Query) :
    q.into_command = Command.query q :=
  rfl

/-- Claim C9: `Rule::into_query` returns a query whose rules list is the
singleton `[r]` and whose imports and publish lists are both empty. -/
theorem into_query_singleton (r : Rule) :
    r.into_query.rules = [r] ∧ r.into_query.imports = [] ∧
    r.into_query.publish = [] :=
  ⟨rfl, rfl, rfl⟩

/-- Claim C10: each builder method touches only its own field: `add_rule`
leaves `imports` and `publish` unchanged, `add_import` leaves `rules` and
`publish` unchanged, and `add_publish` leaves `rules` and `imports`
unchanged. -/
theorem builder_frame_conditions (q : Query) (r : Rule) (p : Plan)
    (k : List Nat) :
    (q.add_rule r).imports = q.imports ∧ (q.add_rule r).publish = q.publish ∧
    (q.add_import p k).rules = q.rules ∧ (q.add_import p k).publish = q.publish ∧
    (q.add_publish p k).rules = q.rules ∧ (q.add_publish p k).imports = q.imports :=
  ⟨rfl, rfl, rfl, rfl, rfl, rfl⟩

/-- Claim C8: for both provided Datum implementations, `subject_to` is a pure,
deterministic function of its two arguments: any two calls with equal data
slices and equal expressions return equal results. -/
theorem subject_to_deterministic (d₁ d₂ : List Nat) (e₁ e₂ : Nat)
    (hd : d₁ = d₂) (he : e₁ = e₂) :
    UsizeDatum.subject_to d₁ e₁ = UsizeDatum.subject_to d₂ e₂ ∧
    U32Datum.subject_to d₁ e₁ = U32Datum.subject_to d₂ e₂ := by
  subst hd; subst he; exact ⟨rfl, rfl⟩

/-- Witness for C8: two calls with the same concrete data and expression agree. -/
theorem subject_to_deterministic_witness :
    UsizeDatum.subject_to [1, 2] 0 = UsizeDatum.subject_to [1, 2] 0 ∧
    U32Datum.subject_to [1, 2] 0 = U32Datum.subject_to [1, 2] 0 :=
  subject_to_deterministic [1, 2] [1, 2] 0 0 rfl rfl

/-- Claim C4: serializing then deserializing round-trips losslessly for
Plan, Rule, Query and Command values (decode of encode returns the original
value), and the decoded value's hash matches the original's. -/
theorem encode_decode_round_trip (q : Query) (r : Rule) (p : Plan) (c : Command) :
    decodePlanMsg (encodePlan p) = some p ∧
    decodeRuleMsg (encodeRule r) = some r ∧
    decodeQueryMsg (encodeQuery q) = some q ∧
    decode (encode c) = some c ∧
    (decodeQueryMsg (encodeQuery q)).map hashQuery = some (hashQuery q) := by
  have hplan : decodePlanMsg (encodePlan p) = some p := by
    have h := decodePlan_encodePlan p (encodePlan p).length []
      (planFuel_le_length_encodePlan p)
    rw [List.append_nil] at h
    simp [decodePlanMsg, h]
  have hrule : decodeRuleMsg (encodeRule r) = some r := by
    have hb : planFuel r.plan ≤ (encodeRule r).length := by
      have h1 := planFuel_le_length_encodePlan r.plan
      simp [encodeRule]
      omega
    have h := decodeRule_encodeRule r (encodeRule r).length [] hb
    rw [List.append_nil] at h
    simp [decodeRuleMsg, h]
  have hquery : decodeQueryMsg (encodeQuery q) = some q := by
    obtain ⟨h1, h2, h3⟩ := queryFuel_bound q
    have h := decodeQuery_encodeQuery q (encodeQuery q).length [] h1 h2 h3
    rw [List.append_nil] at h
    simp [decodeQueryMsg, h]
  have hcmd : decode (encode c) = some c := by
    cases c with
    | query q' =>
      obtain ⟨h1, h2, h3⟩ := queryFuel_bound q'
      have hle : (encodeQuery q').length ≤ (encode (Command.query q')).length := by
        simp [encode, encodeCommand]
      have h := decodeQuery_encodeQuery q' (encode (Command.query q')).length []
        (fun x hx => le_trans (h1 x hx) hle)
        (fun x hx => le_trans (h2 x hx) hle)
        (fun x hx => le_trans (h3 x hx) hle)
      rw [List.append_nil] at h
      simp only [encode, encodeCommand, List.length_cons] at h ⊢
      simp [decode, decodeCommand, h]
  exact ⟨hplan, hrule, hquery, hcmd, by rw [hquery]; rfl⟩

/-- Claim C5: insertion order of the rules, imports and publish lists is part
of a Query value's identity: queries built from the same elements added in
different orders are unequal, and their hashes can differ. -/
theorem insertion_order_part_of_identity :
    (∀ l₁ l₂ : List Rule, l₁.Perm l₂ → l₁ ≠ l₂ →
      queryOfRules l₁ ≠ queryOfRules l₂) ∧
    (∀ l₁ l₂ : List (Plan × List Nat), l₁.Perm l₂ → l₁ ≠ l₂ →
      queryOfImports l₁ ≠ queryOfImports l₂) ∧
    (∀ l₁ l₂ : List (Plan × List Nat), l₁.Perm l₂ → l₁ ≠ l₂ →
      queryOfPublish l₁ ≠ queryOfPublish l₂) ∧
    (∃ r₁ r₂ : Rule,
      hashQuery (queryOfRules [r₁, r₂]) ≠ hashQuery (queryOfRules [r₂, r₁])) := by
  refine ⟨?_, ?_, ?_, ?_⟩
  · intro l₁ l₂ _ hne heq
    exact hne (by rw [← queryOfRules_rules l₁, ← queryOfRules_rules l₂, heq])
  · intro l₁ l₂ _ hne heq
    exact hne (by rw [← queryOfImports_imports l₁, ← queryOfImports_imports l₂, heq])
  · intro l₁ l₂ _ hne heq
    exact hne (by rw [← queryOfPublish_publish l₁, ← queryOfPublish_publish l₂, heq])
  · exact ⟨⟨"a", .read "x"⟩, ⟨"b", .read "x"⟩, by decide⟩

/-- Witness for C5: queries built from the two distinct rules named "a" and
"b" added in the two different orders are unequal. -/
theorem insertion_order_part_of_identity_witness :
    queryOfRules [⟨"a", .read "x"⟩, ⟨"b", .read "x"⟩] ≠
      queryOfRules [⟨"b", .read "x"⟩, ⟨"a", .read "x"⟩] :=
  insertion_order_part_of_identity.1 _ _ (List.Perm.swap _ _ _) (by decide)

/-- Claim C7: installing a Query whose import references a name that is not
an in-query rule name and is absent from the Manager registries reports a
ValidationError and leaves the Manager entirely unchanged: the whole command
aborts atomically with no partial registration. -/
theorem install_unresolved_import_atomic (m : Manager) (q : Query)
    (p : Plan) (keys : List Nat) (n : String)
    (hmem : (p, keys) ∈ q.imports)
    (hname : planImportName p = some n)
    (hrule : ∀ r ∈ q.rules, r.name ≠ n)
    (habsent : managerHasName m n = false) :
    installCommand m q.into_command = (some .validationError, m) := by
  have hany : q.rules.any (fun r => r.name == n) = false := by
    rw [Bool.eq_false_iff]
    intro htrue
    obtain ⟨r, hr, hbeq⟩ := List.any_eq_true.mp htrue
    exact hrule r hr (by simpa using hbeq)
  have hres : importResolves m q p = false := by
    unfold importResolves
    rw [hname]
    simp [hany, habsent]
  have hall : q.imports.all (fun x => importResolves m q x.1) = false := by
    rw [Bool.eq_false_iff]
    intro htrue
    have := List.all_eq_true.mp htrue (p, keys) hmem
    rw [hres] at this
    exact Bool.false_ne_true this
  simp [Query.into_command, installCommand, validateQuery, hall]

/-- Witness for C7: installing, into the empty Manager, a query with a
single import reading the unregistered name "missing" reports a
ValidationError and returns the Manager unchanged. -/
theorem install_unresolved_import_atomic_witness :
    installCommand ⟨[], []⟩
        ((Query.new.add_import (.read "missing") [0]).into_command) =
      (some .validationError, ⟨[], []⟩) :=
  install_unresolved_import_atomic ⟨[], []⟩
    (Query.new.add_import (.read "missing") [0]) (.read "missing") [0] "missing"
    (by decide) rfl (by simp [Query.new, Query.add_import]) (by decide)

end Interactive
